import Mathlib

/-!
Verification of the Bleichenbacher PKCS#1 v1.5 padding-oracle attack
implemented in `src/set6/ch48.py`.

The Python source is shallowly embedded: Python arbitrary-precision
integers become `ℤ` (or `ℕ` where the value is known non-negative),
Python floor division `//` becomes `Int.fdiv`, Python `%` (with a
positive modulus) becomes `Int.emod` (the `%` notation on `ℤ`),
Python `range(lo, hi)` becomes `intRange lo hi`, byte strings become
`List ℕ`, functions that may raise become `Option`-valued, and the
unbounded `while True` loops of the source are given explicit fuel.
-/

set_option maxRecDepth 1000000

/-- Source: `KEY_BYTESIZE = 96`. -/
def KEY_BYTESIZE : ℕ := 96

/-- `B = 2 ** (8 * (KEY_BYTESIZE - 2))`, computed identically in
`FindConformingFromR`, `ComputeNextIntervals` and `Attack` (as a natural). -/
def Bnat : ℕ := 2 ^ (8 * (KEY_BYTESIZE - 2))

/-- `B` as an integer, for the interval arithmetic of the attack. -/
def B : ℤ := (Bnat : ℤ)

/-- Exact ceiling division, as the spec defines it in section 4.1:
`ceil_div(x,y) = (x + y - 1) // y`, with Python `//` = floor division. -/
def ceil_div (x y : ℤ) : ℤ := (x + y - 1).fdiv y

/-- `intRangeGo f lo = [lo, lo+1, ..., lo+f-1]`. -/
def intRangeGo : ℕ → ℤ → List ℤ
  | 0, _ => []
  | f + 1, lo => lo :: intRangeGo f (lo + 1)

/-- Python `range(lo, hi)` over integers. -/
def intRange (lo hi : ℤ) : List ℤ := intRangeGo (hi - lo).toNat lo

theorem mem_intRangeGo (f : ℕ) (lo x : ℤ) :
    x ∈ intRangeGo f lo ↔ lo ≤ x ∧ x < lo + (f : ℤ) := by
  induction f generalizing lo with
  | zero =>
    simp only [intRangeGo, List.not_mem_nil, false_iff, Nat.cast_zero]
    omega
  | succ f ih =>
    simp only [intRangeGo, List.mem_cons, ih]
    push_cast
    omega

theorem mem_intRange (lo hi x : ℤ) : x ∈ intRange lo hi ↔ lo ≤ x ∧ x < hi := by
  rw [intRange, mem_intRangeGo]
  rcases le_or_lt lo hi with h | h
  · rw [Int.toNat_of_nonneg (by omega)]
    omega
  · rw [Int.toNat_of_nonpos (by omega)]
    simp only [Nat.cast_zero]
    omega

/-!
### `ComputeNextIntervals` (source lines 81-94)

```python
def ComputeNextIntervals(Mi, si, n):
    B = 2 ** (8 * (KEY_BYTESIZE-2))
    Mnext = []
    for a, b in Mi:
        for r in range((a*si - 3*B + 1) // n, ((b * si - 2*B) // n) + 1):
            newA = max(a, (2 * B + r * n) // si + 1)
            newB = min(b, (3 * B - 1 + r * n) // si)
            newInterval = (newA, newB)
            if newB >= newA and newInterval not in Mnext:
                Mnext.append(newInterval)
    return Mnext
```
-/

/-- The candidate interval the source computes for a given `r`:
`(max(a, (2B + r*n) // si + 1), min(b, (3B - 1 + r*n) // si))`. -/
def newInterval (a b si n r : ℤ) : ℤ × ℤ :=
  (max a ((2 * B + r * n).fdiv si + 1), min b ((3 * B - 1 + r * n).fdiv si))

/-- The candidates produced by the inner `for r in range(...)` loop of
`ComputeNextIntervals` for one input interval `(a, b)`. -/
def intervalCandidates (a b si n : ℤ) : List (ℤ × ℤ) :=
  (intRange ((a * si - 3 * B + 1).fdiv n) ((b * si - 2 * B).fdiv n + 1)).map
    (newInterval a b si n)

/-- The body of the source's `if newB >= newA and newInterval not in Mnext:
Mnext.append(newInterval)`. -/
def insertCand (Mnext : List (ℤ × ℤ)) (c : ℤ × ℤ) : List (ℤ × ℤ) :=
  if c.2 ≥ c.1 ∧ c ∉ Mnext then Mnext ++ [c] else Mnext

/-- Step 3 of the attack, `ComputeNextIntervals(Mi, si, n)`. The accumulator
`Mnext` starts empty and is threaded through both loops, so deduplication is
global across all input intervals, exactly as in the source. -/
def ComputeNextIntervals (Mi : List (ℤ × ℤ)) (si n : ℤ) : List (ℤ × ℤ) :=
  Mi.foldl (fun acc ab => (intervalCandidates ab.1 ab.2 si n).foldl insertCand acc) []

/-- Modelled from the spec, section 4.3: identical to `ComputeNextIntervals`
except that the lower end of the `r` range and the lower bound of the
candidate interval use exact ceiling division `ceil_div`, as the spec's words
prescribe: `r ∈ [ceil_div(a*s - 3B + 1, n), floor((b*s - 2B)/n)]` and
`newA = max(a, ceil_div(2B + r*n, s))`. -/
def newIntervalSpec (a b si n r : ℤ) : ℤ × ℤ :=
  (max a (ceil_div (2 * B + r * n) si), min b ((3 * B - 1 + r * n).fdiv si))

/-- Modelled from the spec, section 4.3: the candidate list for one interval,
with the spec's `ceil_div` lower `r` bound. -/
def intervalCandidatesSpec (a b si n : ℤ) : List (ℤ × ℤ) :=
  (intRange (ceil_div (a * si - 3 * B + 1) n) ((b * si - 2 * B).fdiv n + 1)).map
    (newIntervalSpec a b si n)

/-- Modelled from the spec, section 4.3: the reference narrowing step. -/
def ComputeNextIntervalsSpec (Mi : List (ℤ × ℤ)) (si n : ℤ) : List (ℤ × ℤ) :=
  Mi.foldl (fun acc ab => (intervalCandidatesSpec ab.1 ab.2 si n).foldl insertCand acc) []

theorem mem_insertCand (acc : List (ℤ × ℤ)) (c x : ℤ × ℤ) (hx : x ∈ acc) :
    x ∈ insertCand acc c := by
  unfold insertCand
  split
  · exact List.mem_append_left _ hx
  · exact hx

theorem mem_foldl_insertCand_mono (l : List (ℤ × ℤ)) (acc : List (ℤ × ℤ))
    (x : ℤ × ℤ) (hx : x ∈ acc) : x ∈ l.foldl insertCand acc := by
  induction l generalizing acc with
  | nil => exact hx
  | cons c t ih => exact ih _ (mem_insertCand acc c x hx)

theorem mem_foldl_insertCand_of_mem (l : List (ℤ × ℤ)) (acc : List (ℤ × ℤ))
    (c : ℤ × ℤ) (hc : c ∈ l) (hord : c.1 ≤ c.2) : c ∈ l.foldl insertCand acc := by
  induction l generalizing acc with
  | nil => cases hc
  | cons d t ih =>
    rcases List.mem_cons.mp hc with rfl | hct
    · have hcin : c ∈ insertCand acc c := by
        unfold insertCand
        split
        · exact List.mem_append_right _ (List.mem_singleton.mpr rfl)
        · rename_i h
          rcases not_and_or.mp h with h1 | h2
          · omega
          · exact not_not.mp h2
      rw [List.foldl_cons]
      exact mem_foldl_insertCand_mono _ _ _ hcin
    · exact ih _ hct

theorem mem_foldl_insertCand_elim (l : List (ℤ × ℤ)) (acc : List (ℤ × ℤ))
    (x : ℤ × ℤ) (hx : x ∈ l.foldl insertCand acc) :
    x ∈ acc ∨ (x ∈ l ∧ x.1 ≤ x.2) := by
  induction l generalizing acc with
  | nil => exact Or.inl hx
  | cons c t ih =>
    rcases ih _ hx with h | h
    · unfold insertCand at h
      split at h
      · rcases List.mem_append.mp h with h1 | h2
        · exact Or.inl h1
        · rename_i hg
          have : x = c := List.mem_singleton.mp h2
          subst this
          exact Or.inr ⟨List.mem_cons_self _ _, by omega⟩
      · exact Or.inl h
    · exact Or.inr ⟨List.mem_cons_of_mem _ h.1, h.2⟩

theorem nodup_insertCand (acc : List (ℤ × ℤ)) (c : ℤ × ℤ) (h : acc.Nodup) :
    (insertCand acc c).Nodup := by
  unfold insertCand
  split
  · rename_i hg
    simpa using List.Nodup.append h (List.nodup_singleton c) (by simpa using hg.2)
  · exact h

theorem nodup_foldl_insertCand (l : List (ℤ × ℤ)) (acc : List (ℤ × ℤ))
    (h : acc.Nodup) : (l.foldl insertCand acc).Nodup := by
  induction l generalizing acc with
  | nil => exact h
  | cons c t ih => exact ih _ (nodup_insertCand acc c h)

theorem mem_outer_foldl_mono (f : ℤ × ℤ → List (ℤ × ℤ)) (Mi : List (ℤ × ℤ))
    (acc : List (ℤ × ℤ)) (x : ℤ × ℤ) (hx : x ∈ acc) :
    x ∈ Mi.foldl (fun acc ab => (f ab).foldl insertCand acc) acc := by
  induction Mi generalizing acc with
  | nil => exact hx
  | cons ab t ih =>
    rw [List.foldl_cons]
    exact ih _ (mem_foldl_insertCand_mono _ _ _ hx)

theorem mem_outer_foldl_intro (f : ℤ × ℤ → List (ℤ × ℤ)) (Mi : List (ℤ × ℤ))
    (acc : List (ℤ × ℤ)) (ab : ℤ × ℤ) (c : ℤ × ℤ) (hab : ab ∈ Mi)
    (hc : c ∈ f ab) (hord : c.1 ≤ c.2) :
    c ∈ Mi.foldl (fun acc ab => (f ab).foldl insertCand acc) acc := by
  induction Mi generalizing acc with
  | nil => cases hab
  | cons d t ih =>
    rw [List.foldl_cons]
    rcases List.mem_cons.mp hab with rfl | habt
    · exact mem_outer_foldl_mono f t _ c (mem_foldl_insertCand_of_mem _ _ _ hc hord)
    · exact ih _ habt

theorem mem_outer_foldl_elim (f : ℤ × ℤ → List (ℤ × ℤ)) (Mi : List (ℤ × ℤ))
    (acc : List (ℤ × ℤ)) (x : ℤ × ℤ)
    (hx : x ∈ Mi.foldl (fun acc ab => (f ab).foldl insertCand acc) acc) :
    x ∈ acc ∨ ∃ ab ∈ Mi, x ∈ f ab ∧ x.1 ≤ x.2 := by
  induction Mi generalizing acc with
  | nil => exact Or.inl hx
  | cons d t ih =>
    rw [List.foldl_cons] at hx
    rcases ih _ hx with h | ⟨ab, habt, hmem, hord⟩
    · rcases mem_foldl_insertCand_elim _ _ _ h with h1 | ⟨h2, h3⟩
      · exact Or.inl h1
      · exact Or.inr ⟨d, List.mem_cons_self _ _, h2, h3⟩
    · exact Or.inr ⟨ab, List.mem_cons_of_mem _ habt, hmem, hord⟩

theorem nodup_outer_foldl (f : ℤ × ℤ → List (ℤ × ℤ)) (Mi : List (ℤ × ℤ))
    (acc : List (ℤ × ℤ)) (h : acc.Nodup) :
    (Mi.foldl (fun acc ab => (f ab).foldl insertCand acc) acc).Nodup := by
  induction Mi generalizing acc with
  | nil => exact h
  | cons d t ih =>
    rw [List.foldl_cons]
    exact ih _ (nodup_foldl_insertCand _ _ h)

theorem mem_intervalCandidates (a b si n : ℤ) (p : ℤ × ℤ) :
    p ∈ intervalCandidates a b si n ↔
      ∃ r : ℤ, (a * si - 3 * B + 1).fdiv n ≤ r ∧ r ≤ (b * si - 2 * B).fdiv n ∧
        p = newInterval a b si n r := by
  unfold intervalCandidates
  rw [List.mem_map]
  constructor
  · rintro ⟨r, hr, rfl⟩
    rw [mem_intRange] at hr
    exact ⟨r, hr.1, by omega, rfl⟩
  · rintro ⟨r, h1, h2, rfl⟩
    exact ⟨r, (mem_intRange _ _ _).mpr ⟨h1, by omega⟩, rfl⟩

set_option maxRecDepth 100000 in
/-- Claim C1 (counterexample). The narrowing step can drop the true plaintext
at the lower band edge: with `M = [(2B, 3B-1)]`, `s = 1`, `n = 2^768` and true
plaintext `m = 2B`, the oracle acceptance condition `2B <= (m*s) mod n < 3B`
holds (the residue is exactly `2B`), `m` lies in the union of `M`, yet every
interval returned by `ComputeNextIntervals` excludes `m`: the output is
`[(2B+1, 3B-1)]`, because the source computes `newA` as `(2B + r*n) // s + 1`
(floor plus one) instead of an exact ceiling. -/
theorem computeNextIntervals_drops_lower_edge :
    2 * B ≤ (2 * B * 1) % ((2:ℤ) ^ 768) ∧ (2 * B * 1) % ((2:ℤ) ^ 768) < 3 * B ∧
    ComputeNextIntervals [(2 * B, 3 * B - 1)] 1 ((2:ℤ) ^ 768) = [(2 * B + 1, 3 * B - 1)] ∧
    (ComputeNextIntervals [(2 * B, 3 * B - 1)] 1 ((2:ℤ) ^ 768)).all
      (fun p => !(decide (p.1 ≤ 2 * B) && decide (2 * B ≤ p.2))) = true := by
  refine ⟨by decide, by decide, by decide, by decide⟩

/-- Claim C1 (amended): soundness of narrowing holds away from the lower band
edge. For every interval set `M`, interval `(a,b) ∈ M` containing the true
plaintext `m`, positive modulus `n` and positive multiplier `s` such that
`2B < (m*s) mod n < 3B` (strict at the lower edge, where the claim's
non-strict `2B <= (m*s) mod n` fails on the code), the union of the intervals
returned by `ComputeNextIntervals(M, s, n)` still contains `m`. -/
theorem computeNextIntervals_sound_amended (Mi : List (ℤ × ℤ)) (si n m a b : ℤ)
    (hmem : (a, b) ∈ Mi) (ham : a ≤ m) (hmb : m ≤ b)
    (hn : 0 < n) (hsi : 0 < si)
    (hband_lo : 2 * B < (m * si) % n) (hband_hi : (m * si) % n < 3 * B) :
    ∃ p ∈ ComputeNextIntervals Mi si n, p.1 ≤ m ∧ m ≤ p.2 := by
  set q : ℤ := m * si with hq
  set t : ℤ := q % n with ht
  set r : ℤ := q / n with hr
  have hqd : n * r + t = q := Int.ediv_add_emod q n
  have hfdn : ∀ x : ℤ, x.fdiv n = x / n := fun x => Int.fdiv_eq_ediv x (le_of_lt hn)
  have hfds : ∀ x : ℤ, x.fdiv si = x / si := fun x => Int.fdiv_eq_ediv x (le_of_lt hsi)
  have hms : a * si ≤ q := by
    rw [hq]
    exact mul_le_mul_of_nonneg_right ham (le_of_lt hsi)
  have hqb : q ≤ b * si := by
    rw [hq]
    exact mul_le_mul_of_nonneg_right hmb (le_of_lt hsi)
  have hband_hi' : t ≤ 3 * B - 1 := by linarith [Int.lt_iff_add_one_le.mp hband_hi]
  have hband_lo' : 2 * B + 1 ≤ t := Int.lt_iff_add_one_le.mp hband_lo
  have hr_lo : (a * si - 3 * B + 1).fdiv n ≤ r := by
    rw [hfdn]
    have h1 : a * si - 3 * B + 1 ≤ n * r := by linarith
    calc (a * si - 3 * B + 1) / n ≤ (n * r) / n := Int.ediv_le_ediv hn h1
      _ = r := Int.mul_ediv_cancel_left r (ne_of_gt hn)
  have hr_hi : r ≤ (b * si - 2 * B).fdiv n := by
    rw [hfdn]
    have h1 : n * r ≤ b * si - 2 * B := by linarith
    calc r = (n * r) / n := (Int.mul_ediv_cancel_left r (ne_of_gt hn)).symm
      _ ≤ (b * si - 2 * B) / n := Int.ediv_le_ediv hn h1
  have hrc : r * n = n * r := mul_comm r n
  have hA : (2 * B + r * n).fdiv si + 1 ≤ m := by
    rw [hfds]
    have h2 : 2 * B + r * n < m * si := by
      rw [hrc, ← hq]
      linarith
    exact Int.lt_iff_add_one_le.mp ((Int.ediv_lt_iff_lt_mul hsi).mpr h2)
  have hB2 : m ≤ (3 * B - 1 + r * n).fdiv si := by
    rw [hfds]
    have h2 : m * si ≤ 3 * B - 1 + r * n := by
      rw [hrc, ← hq]
      linarith
    exact (Int.le_ediv_iff_mul_le hsi).mpr h2
  have hp1 : (newInterval a b si n r).1 ≤ m := max_le ham hA
  have hp2 : m ≤ (newInterval a b si n r).2 := le_min hmb hB2
  have hcand : newInterval a b si n r ∈ intervalCandidates a b si n :=
    (mem_intervalCandidates a b si n _).mpr ⟨r, hr_lo, hr_hi, rfl⟩
  refine ⟨newInterval a b si n r, ?_, hp1, hp2⟩
  exact mem_outer_foldl_intro (fun ab => intervalCandidates ab.1 ab.2 si n) Mi []
    (a, b) _ hmem hcand (le_trans hp1 hp2)

set_option maxRecDepth 100000 in
/-- Claim C1 (witness): the amended soundness theorem applied at
`M = [(2B, 3B-1)]`, `s = 1`, `n = 2^768`, `m = 2B + 1`. -/
theorem computeNextIntervals_sound_amended_witness :
    ∃ p ∈ ComputeNextIntervals [(2 * B, 3 * B - 1)] 1 ((2:ℤ) ^ 768),
      p.1 ≤ 2 * B + 1 ∧ 2 * B + 1 ≤ p.2 :=
  computeNextIntervals_sound_amended [(2 * B, 3 * B - 1)] 1 ((2:ℤ) ^ 768)
    (2 * B + 1) (2 * B) (3 * B - 1) (by decide) (by decide) (by decide)
    (by decide) (by decide) (by decide) (by decide)

set_option maxRecDepth 100000 in
/-- Claim C2 (counterexample). `ComputeNextIntervals` does not equal the
reference definition of spec section 4.3: at `M = [(2B, 3B-1)]`, `s = 1`,
`n = 2^768` the code returns `[(2B+1, 3B-1)]` while the reference (which uses
exact ceiling division both for the lower end of the `r` range and for
`newA`) returns `[(2B, 3B-1)]`. -/
theorem computeNextIntervals_ne_spec :
    ComputeNextIntervals [(2 * B, 3 * B - 1)] 1 ((2:ℤ) ^ 768) ≠
      ComputeNextIntervalsSpec [(2 * B, 3 * B - 1)] 1 ((2:ℤ) ^ 768) := by
  decide

/-- Claim C2 (amended): the characterization that actually holds.
`ComputeNextIntervals(M, s, n)` contains a pair `p` if and only if some input
interval `(a,b) ∈ M` and some integer `r` with
`(a*s - 3B + 1) // n <= r <= (b*s - 2B) // n` (floor division at the lower
end, not `ceil_div`) produce `p = (max(a, (2B + r*n) // s + 1),
min(b, (3B - 1 + r*n) // s))` (floor plus one, not `ceil_div`) with lower
bound at most upper bound; and the output list holds no duplicate pair. -/
theorem computeNextIntervals_characterization (Mi : List (ℤ × ℤ)) (si n : ℤ)
    (p : ℤ × ℤ) :
    (p ∈ ComputeNextIntervals Mi si n ↔
      ∃ a b : ℤ, (a, b) ∈ Mi ∧ ∃ r : ℤ,
        (a * si - 3 * B + 1).fdiv n ≤ r ∧ r ≤ (b * si - 2 * B).fdiv n ∧
        p = newInterval a b si n r ∧ p.1 ≤ p.2) ∧
    (ComputeNextIntervals Mi si n).Nodup := by
  constructor
  · constructor
    · intro hp
      rcases mem_outer_foldl_elim _ Mi [] p hp with h | ⟨ab, hab, hcand, hord⟩
      · cases h
      · rcases (mem_intervalCandidates ab.1 ab.2 si n p).mp hcand with ⟨r, h1, h2, hpr⟩
        exact ⟨ab.1, ab.2, by rwa [Prod.mk.eta], r, h1, h2, hpr, hord⟩
    · rintro ⟨a, b, hab, r, h1, h2, hpr, hord⟩
      have hcand : p ∈ intervalCandidates a b si n :=
        (mem_intervalCandidates a b si n p).mpr ⟨r, h1, h2, hpr⟩
      exact mem_outer_foldl_intro (fun ab => intervalCandidates ab.1 ab.2 si n)
        Mi [] (a, b) p hab hcand hord
  · exact nodup_outer_foldl _ Mi [] List.nodup_nil

/-- Claim C7: narrowing only shrinks. Every interval in the output of
`ComputeNextIntervals(M, s, n)` lies inside the input interval it was derived
from, and consequently if every input interval lies within `[2B, 3B-1]` then
so does every output interval. -/
theorem computeNextIntervals_shrinks (Mi : List (ℤ × ℤ)) (si n : ℤ) :
    (∀ p ∈ ComputeNextIntervals Mi si n,
      ∃ q ∈ Mi, q.1 ≤ p.1 ∧ p.1 ≤ p.2 ∧ p.2 ≤ q.2) ∧
    ((∀ q ∈ Mi, 2 * B ≤ q.1 ∧ q.2 ≤ 3 * B - 1) →
      ∀ p ∈ ComputeNextIntervals Mi si n,
        2 * B ≤ p.1 ∧ p.1 ≤ p.2 ∧ p.2 ≤ 3 * B - 1) := by
  have main : ∀ p ∈ ComputeNextIntervals Mi si n,
      ∃ q ∈ Mi, q.1 ≤ p.1 ∧ p.1 ≤ p.2 ∧ p.2 ≤ q.2 := by
    intro p hp
    rcases mem_outer_foldl_elim _ Mi [] p hp with h | ⟨ab, hab, hcand, hord⟩
    · cases h
    · rcases (mem_intervalCandidates ab.1 ab.2 si n p).mp hcand with ⟨r, _, _, hpr⟩
      refine ⟨ab, hab, ?_, hord, ?_⟩
      · rw [hpr]
        exact le_max_left _ _
      · rw [hpr]
        exact min_le_left _ _
  refine ⟨main, ?_⟩
  intro hin p hp
  rcases main p hp with ⟨q, hq, hq1, hord, hq2⟩
  rcases hin q hq with ⟨hb1, hb2⟩
  exact ⟨le_trans hb1 hq1, hord, le_trans hq2 hb2⟩

set_option maxRecDepth 100000 in
/-- Claim C7 (witness): the shrinking theorem applied at `M = [(2B, 3B-1)]`,
`s = 2`, `n = B`, where the output has two intervals; the first output
interval `(2B+1, 5*2^751 - 1)` lies inside `(2B, 3B-1)`. -/
theorem computeNextIntervals_shrinks_witness :
    ∃ q ∈ [(2 * B, 3 * B - 1)],
      q.1 ≤ 2 * B + 1 ∧ 2 * B + 1 ≤ 5 * (2:ℤ) ^ 751 - 1 ∧ 5 * (2:ℤ) ^ 751 - 1 ≤ q.2 :=
  (computeNextIntervals_shrinks [(2 * B, 3 * B - 1)] 2 B).1
    (2 * B + 1, 5 * (2:ℤ) ^ 751 - 1) (by decide)

/-!
### `ParityOracle.IsValid` (source lines 17-30)

```python
def IsValid(self, ciphernum):
    plainnum = rsa.Decrypt(self._key, ciphernum)
    plainbytes = IntegerToBytes(plainnum)
    while len(plainbytes) < KEY_BYTESIZE:
        plainbytes = b'\x00' + plainbytes
    return plainbytes[0] == 0 and plainbytes[1] == 2
```

`rsa.Decrypt` and `IntegerToBytes` live in modules that are not part of
`src/`, so they are modelled from the spec (sections 6 and 4.2).
-/

/-- Modelled from the spec, section 6: `IntegerToBytes(integer) -> bytes`,
standard big-endian unsigned conversion (minimal length, so a leading zero
byte is lost, exactly the behaviour the source's padding loop compensates
for). The recursion is fuelled by the number itself. -/
def toBytesAux : ℕ → ℕ → List ℕ
  | 0, _ => []
  | f + 1, n => if n = 0 then [] else toBytesAux f (n / 256) ++ [n % 256]

/-- Modelled from the spec, section 6: big-endian bytes of a natural. -/
def IntegerToBytes (n : ℕ) : List ℕ := toBytesAux n n

/-- The source's `while len(plainbytes) < KEY_BYTESIZE` loop: left-pad with
zero bytes up to length `k`. -/
def padTo (k : ℕ) (l : List ℕ) : List ℕ := List.replicate (k - l.length) 0 ++ l

/-- Helper for reasoning: the fixed-width `k`-byte big-endian representation
of `m` (low byte last). -/
def toFixedBytes : ℕ → ℕ → List ℕ
  | 0, _ => []
  | k + 1, m => toFixedBytes k (m / 256) ++ [m % 256]

/-- Modelled from the spec, section 6: `Decrypt(privateKey, c) = c^d mod n`
with `privateKey = (d, n)`; the `rsa` module is not part of `src/`. -/
def Decrypt (key : ℕ × ℕ) (c : ℕ) : ℕ := c ^ key.1 % key.2

/-- `ParityOracle.IsValid` from the source: decrypt, convert to big-endian
bytes, left-pad with zeros to `KEY_BYTESIZE`, and test that the first byte is
`0` and the second is `2`. -/
def IsValid (key : ℕ × ℕ) (ciphernum : ℕ) : Bool :=
  ((padTo KEY_BYTESIZE (IntegerToBytes (Decrypt key ciphernum))).getD 0 1 == 0) &&
    ((padTo KEY_BYTESIZE (IntegerToBytes (Decrypt key ciphernum))).getD 1 0 == 2)

theorem toBytesAux_zero (f : ℕ) : toBytesAux f 0 = [] := by
  cases f <;> simp [toBytesAux]

theorem toBytesAux_fuel (n : ℕ) : ∀ f g : ℕ, n ≤ f → n ≤ g →
    toBytesAux f n = toBytesAux g n := by
  induction n using Nat.strong_induction_on with
  | _ n ih =>
    intro f g hf hg
    rcases n with _ | m
    · rw [toBytesAux_zero, toBytesAux_zero]
    · obtain ⟨f1, rfl⟩ : ∃ f1, f = f1 + 1 := ⟨f - 1, by omega⟩
      obtain ⟨g1, rfl⟩ : ∃ g1, g = g1 + 1 := ⟨g - 1, by omega⟩
      simp only [toBytesAux, if_neg (Nat.succ_ne_zero m)]
      have hlt : (m + 1) / 256 < m + 1 := Nat.div_lt_self (Nat.succ_pos m) (by omega)
      rw [ih _ hlt f1 g1 (by omega) (by omega)]

theorem IntegerToBytes_pos (n : ℕ) (h : n ≠ 0) :
    IntegerToBytes n = IntegerToBytes (n / 256) ++ [n % 256] := by
  obtain ⟨m, rfl⟩ : ∃ m, n = m + 1 := ⟨n - 1, by omega⟩
  show toBytesAux (m + 1) (m + 1) = _
  simp only [toBytesAux, if_neg h]
  have hlt : (m + 1) / 256 < m + 1 := Nat.div_lt_self (Nat.succ_pos m) (by omega)
  rw [toBytesAux_fuel _ _ _ (by omega) (le_refl _)]
  rfl

theorem toFixedBytes_zero_eq (k : ℕ) : toFixedBytes k 0 = List.replicate k 0 := by
  induction k with
  | zero => rfl
  | succ k ih =>
    show toFixedBytes k (0 / 256) ++ [0 % 256] = _
    rw [Nat.zero_div, ih, List.replicate_succ']

theorem toFixedBytes_length (k m : ℕ) : (toFixedBytes k m).length = k := by
  induction k generalizing m with
  | zero => rfl
  | succ k ih =>
    show (toFixedBytes k (m / 256) ++ [m % 256]).length = k + 1
    rw [List.length_append, ih]
    rfl

theorem padTo_eq_toFixedBytes (k m : ℕ) (h : m < 256 ^ k) :
    padTo k (IntegerToBytes m) = toFixedBytes k m := by
  induction k generalizing m with
  | zero =>
    have hm : m = 0 := by simpa using h
    subst hm
    rfl
  | succ k ih =>
    by_cases hm : m = 0
    · subst hm
      rw [toFixedBytes_zero_eq]
      have h0 : IntegerToBytes 0 = [] := rfl
      rw [padTo, h0]
      simp
    · have hstep := IntegerToBytes_pos m hm
      have hlen : (IntegerToBytes m).length = (IntegerToBytes (m / 256)).length + 1 := by
        rw [hstep]
        simp
      have hdiv : m / 256 < 256 ^ k := by
        have h2 : (256:ℕ) ^ (k + 1) = 256 ^ k * 256 := pow_succ 256 k
        omega
      calc padTo (k + 1) (IntegerToBytes m)
          = List.replicate (k + 1 - (IntegerToBytes m).length) 0 ++ IntegerToBytes m := rfl
        _ = List.replicate (k - (IntegerToBytes (m / 256)).length) 0 ++
              (IntegerToBytes (m / 256) ++ [m % 256]) := by
            rw [hlen, hstep]
            have harith : k + 1 - ((IntegerToBytes (m / 256)).length + 1) =
                k - (IntegerToBytes (m / 256)).length := by omega
            rw [harith]
        _ = (List.replicate (k - (IntegerToBytes (m / 256)).length) 0 ++
              IntegerToBytes (m / 256)) ++ [m % 256] := by rw [List.append_assoc]
        _ = padTo k (IntegerToBytes (m / 256)) ++ [m % 256] := rfl
        _ = toFixedBytes k (m / 256) ++ [m % 256] := by rw [ih _ hdiv]
        _ = toFixedBytes (k + 1) m := rfl

theorem toFixedBytes_getD (k m i d : ℕ) (hik : i < k) :
    (toFixedBytes k m).getD i d = m / 256 ^ (k - 1 - i) % 256 := by
  induction k generalizing m i with
  | zero => omega
  | succ k ih =>
    show (toFixedBytes k (m / 256) ++ [m % 256]).getD i d = _
    have hlen : (toFixedBytes k (m / 256)).length = k := toFixedBytes_length k (m / 256)
    by_cases hi : i < k
    · rw [List.getD_append _ _ _ _ (by omega), ih (m / 256) i hi,
        Nat.div_div_eq_div_mul]
      have hexp : 256 * 256 ^ (k - 1 - i) = 256 ^ (k + 1 - 1 - i) := by
        rw [← pow_succ']
        congr 1
        omega
      rw [← hexp]
    · have hik2 : i = k := by omega
      subst hik2
      rw [List.getD_append_right _ _ _ _ (by omega), hlen, Nat.sub_self]
      have harith : i + 1 - 1 - i = 0 := by omega
      rw [harith, pow_zero, Nat.div_one]
      rfl

/-- Claim C3: `ParityOracle.IsValid(c)` returns true if and only if the
decrypted plaintext integer `m = Decrypt(privKey, c)` (with `m < 2^(8k)`,
`k = 96`) satisfies `2B <= m < 3B`; equivalently, the `k`-byte left-zero
padded big-endian encoding of `m` starts with bytes `0x00, 0x02`. -/
theorem isValid_iff_band (key : ℕ × ℕ) (c : ℕ)
    (h : Decrypt key c < 256 ^ KEY_BYTESIZE) :
    IsValid key c = true ↔
      2 * Bnat ≤ Decrypt key c ∧ Decrypt key c < 3 * Bnat := by
  have hB94 : Bnat = 256 ^ 94 := by
    show 2 ^ (8 * (KEY_BYTESIZE - 2)) = 256 ^ 94
    rw [show (256:ℕ) = 2 ^ 8 by norm_num, ← pow_mul]
    norm_num [KEY_BYTESIZE]
  set m := Decrypt key c with hmdef
  unfold IsValid
  rw [padTo_eq_toFixedBytes KEY_BYTESIZE m h]
  rw [toFixedBytes_getD KEY_BYTESIZE m 0 1 (by decide),
    toFixedBytes_getD KEY_BYTESIZE m 1 0 (by decide)]
  rw [Bool.and_eq_true, beq_iff_eq, beq_iff_eq, hB94]
  have hexp0 : KEY_BYTESIZE - 1 - 0 = 95 := by decide
  have hexp1 : KEY_BYTESIZE - 1 - 1 = 94 := by decide
  rw [hexp0, hexp1]
  have h96 : m < 256 ^ 96 := h
  have p95 : (256:ℕ) ^ 95 = 256 ^ 94 * 256 := pow_succ 256 94
  have p96 : (256:ℕ) ^ 96 = 256 ^ 95 * 256 := pow_succ 256 95
  have pos94 : 0 < (256:ℕ) ^ 94 := pow_pos (by norm_num) 94
  have pos95 : 0 < (256:ℕ) ^ 95 := pow_pos (by norm_num) 95
  have hd95 : m / 256 ^ 95 < 256 := by
    rw [Nat.div_lt_iff_lt_mul pos95]
    omega
  have hm95 : m / 256 ^ 95 % 256 = m / 256 ^ 95 := Nat.mod_eq_of_lt hd95
  constructor
  · rintro ⟨h1, h2⟩
    rw [hm95] at h1
    have hlt95 : m < 256 ^ 95 := by
      by_contra hge
      push_neg at hge
      have hone : 1 ≤ m / 256 ^ 95 := (Nat.le_div_iff_mul_le pos95).mpr (by omega)
      rw [h1] at hone
      exact absurd hone (by norm_num)
    have hd94 : m / 256 ^ 94 < 256 := by
      rw [Nat.div_lt_iff_lt_mul pos94]
      omega
    rw [Nat.mod_eq_of_lt hd94] at h2
    constructor
    · exact (Nat.le_div_iff_mul_le pos94).mp h2.ge
    · have h3 : m / 256 ^ 94 < 3 := lt_of_eq_of_lt h2 (by norm_num)
      have := (Nat.div_lt_iff_lt_mul pos94).mp h3
      omega
  · rintro ⟨h1, h2⟩
    have hlt95 : m < 256 ^ 95 := by omega
    have hd94 : m / 256 ^ 94 = 2 := by
      have hlow : 2 ≤ m / 256 ^ 94 := (Nat.le_div_iff_mul_le pos94).mpr (by omega)
      have hhigh : m / 256 ^ 94 < 3 := (Nat.div_lt_iff_lt_mul pos94).mpr (by omega)
      omega
    refine ⟨?_, ?_⟩
    · rw [hm95, Nat.div_eq_of_lt hlt95]
    · have hmod : m / 256 ^ 94 % 256 = m / 256 ^ 94 :=
        Nat.mod_eq_of_lt (by rw [hd94]; norm_num)
      rw [hmod, hd94]

/-- Claim C3 (witness): the oracle equivalence applied at the concrete key
`(d, n) = (1, 5)` and ciphertext `3`, whose decryption `3` is below
`2^(8*96)`. -/
theorem isValid_iff_band_witness :
    IsValid (1, 5) 3 = true ↔ 2 * Bnat ≤ Decrypt (1, 5) 3 ∧ Decrypt (1, 5) 3 < 3 * Bnat :=
  isValid_iff_band (1, 5) 3 (by decide)

/-!
### `PKCS1_ENCODE` / `PKCS1_DECODE` (source lines 32-48)

```python
def PKCS1_ENCODE(M):
    padding = (KEY_BYTESIZE - len(M) - 3) * b'\xff'
    EM = b'\x00\x02' + padding + b'\x00' + M
    return EM

def PKCS1_DECODE(M):
    if M[0] != 0 or M[1] != 2:
        raise Exception('Cannot decode malformed message')
    for i in range(2, len(M)):
        if M[i] == 0 and i > 2:
            return M[i+1:]
    raise Exception('Cannot decode malformed message')
```

Raising is modelled as `none`. Python's negative-repetition convention
(`(-k) * b'\xff' = b''`) coincides with truncated natural subtraction.
-/

/-- `PKCS1_ENCODE` from the source. -/
def PKCS1_ENCODE (M : List ℕ) : List ℕ :=
  [0, 2] ++ List.replicate (KEY_BYTESIZE - M.length - 3) 255 ++ [0] ++ M

/-- The `for i in range(2, len(M))` scan of `PKCS1_DECODE`: `fuel` counts the
remaining indices (`len(M) - i` at entry), `i` is the current index. The
default of `getD` is never used, since `i < len(M)` whenever `fuel > 0`. -/
def scanLoop (M : List ℕ) : ℕ → ℕ → Option (List ℕ)
  | 0, _ => none
  | fuel + 1, i =>
    if M.getD i 1 = 0 ∧ 2 < i then some (M.drop (i + 1)) else scanLoop M fuel (i + 1)

/-- `PKCS1_DECODE` from the source; `none` models the raised exception. An
out-of-range `M[0]`/`M[1]` (inputs shorter than two bytes) also raises in
Python, and the `getD` defaults `1`/`0` make those inputs fail here too. -/
def PKCS1_DECODE (M : List ℕ) : Option (List ℕ) :=
  if M.getD 0 1 = 0 ∧ M.getD 1 0 = 2 then scanLoop M (M.length - 2) 2 else none

theorem scanLoop_skip (M : List ℕ) (k : ℕ) : ∀ (f i : ℕ),
    (∀ j : ℕ, i ≤ j → j < i + k → M.getD j 1 ≠ 0) →
    scanLoop M (k + f) i = scanLoop M f (i + k) := by
  induction k with
  | zero =>
    intro f i _
    rw [Nat.zero_add, Nat.add_zero]
  | succ k ih =>
    intro f i hnz
    have hstep : k + 1 + f = (k + f) + 1 := by omega
    rw [hstep]
    show (if M.getD i 1 = 0 ∧ 2 < i then some (M.drop (i + 1))
      else scanLoop M (k + f) (i + 1)) = scanLoop M f (i + (k + 1))
    rw [if_neg (by
      intro hcon
      exact hnz i (le_refl i) (by omega) hcon.1)]
    rw [ih f (i + 1) (fun j hj1 hj2 => hnz j (by omega) (by omega))]
    congr 1
    omega

/-- Claim C8: round trip. For every byte string `M` with
`len(M) <= k - 11 = 85`, `PKCS1_DECODE(PKCS1_ENCODE(M)) = M` and the decoder
raises no error (returns `some`). -/
theorem pkcs1_roundtrip (M : List ℕ) (hlen : M.length ≤ KEY_BYTESIZE - 11) :
    PKCS1_DECODE (PKCS1_ENCODE M) = some M := by
  have hKEY : KEY_BYTESIZE = 96 := rfl
  set p : ℕ := KEY_BYTESIZE - M.length - 3 with hp
  have hp8 : 8 ≤ p := by omega
  set EM : List ℕ := PKCS1_ENCODE M with hEM
  have hEMeq : EM = [0, 2] ++ (List.replicate p 255 ++ ([0] ++ M)) := by
    rw [hEM, PKCS1_ENCODE]
    simp [List.append_assoc]
  have hEMlen : EM.length = 2 + (p + (1 + M.length)) := by
    rw [hEMeq]
    simp
    omega
  have h0 : EM.getD 0 1 = 0 := by
    rw [hEMeq]
    rfl
  have h1 : EM.getD 1 0 = 2 := by
    rw [hEMeq]
    rfl
  rw [PKCS1_DECODE, if_pos ⟨h0, h1⟩]
  have hlen2 : EM.length - 2 = p + (1 + M.length) := by omega
  rw [hlen2]
  have hnz : ∀ j : ℕ, 2 ≤ j → j < 2 + p → EM.getD j 1 ≠ 0 := by
    intro j hj1 hj2
    rw [hEMeq]
    rw [List.getD_append_right _ _ _ _ (by simp; omega)]
    rw [List.getD_append _ _ _ _ (by simp; omega)]
    have hidx : j - 2 < p := by omega
    simp [List.getD, List.getElem?_replicate, hidx]
  rw [scanLoop_skip EM p (1 + M.length) 2 hnz]
  rw [show 1 + M.length = M.length + 1 from by omega]
  have hsep : EM.getD (2 + p) 1 = 0 := by
    rw [hEMeq]
    rw [List.getD_append_right _ _ _ _ (by simp)]
    rw [List.getD_append_right _ _ _ _ (by simp)]
    simp
  show (if EM.getD (2 + p) 1 = 0 ∧ 2 < 2 + p then some (EM.drop (2 + p + 1))
    else scanLoop EM M.length (2 + p + 1)) = some M
  rw [if_pos ⟨hsep, by omega⟩]
  have hEMeq2 : EM = ([0, 2] ++ List.replicate p 255 ++ [0]) ++ M := by
    rw [hEMeq]
    simp [List.append_assoc]
  have hprelen : ([0, 2] ++ List.replicate p 255 ++ [0]).length = 2 + p + 1 := by
    simp
    omega
  rw [hEMeq2, show 2 + p + 1 = ([0, 2] ++ List.replicate p 255 ++ [0]).length from hprelen.symm,
    List.drop_left]

/-- Claim C8 (witness): the round trip evaluated at the empty message. -/
theorem pkcs1_roundtrip_witness : PKCS1_DECODE (PKCS1_ENCODE []) = some [] :=
  pkcs1_roundtrip [] (by decide)

/-!
### `FindConformingBaseStep` (lines 51-59) and `FindConformingFromR` (63-78)

```python
def FindConformingBaseStep(startS, oracle, pubKey, ciphernum):
    e, n = pubKey
    s = startS
    while True:
        c = (ciphernum * pow(s, e, n)) % n
        if oracle.IsValid(c):
            return s
        s += 1

def FindConformingFromR(r, oracle, pubKey, ciphernum, interval):
    a, b = interval
    e, n = pubKey
    B = 2 ** (8 * (KEY_BYTESIZE-2))
    for si in range((2 * B + r * n + b - 1) // b, (3 * B - 1 + r * n) // a + 1):
        c = (ciphernum * pow(si, e, n)) % n
        if oracle.IsValid(c):
            return si
    return None
```

The oracle is a parameter `ℤ → Bool`; the `while True` of the base step gets
explicit fuel (`none` means the loop was still running when the fuel ran
out — the source has no bound and no failure path there).
-/

/-- `FindConformingBaseStep` with fuel: linear search upward from `s`. -/
def FindConformingBaseStepF : ℕ → ℤ → (ℤ → Bool) → ℕ → ℤ → ℤ → Option ℤ
  | 0, _, _, _, _, _ => none
  | fuel + 1, s, oracle, e, n, ciphernum =>
    if oracle ((ciphernum * (s ^ e % n)) % n) then some s
    else FindConformingBaseStepF fuel (s + 1) oracle e n ciphernum

/-- `FindConformingFromR`: bounded search over the Python range
`range((2B + r*n + b - 1) // b, (3B - 1 + r*n) // a + 1)`, returning the
first accepted multiplier or `None`. -/
def FindConformingFromR (r : ℤ) (oracle : ℤ → Bool) (e : ℕ) (n ciphernum : ℤ)
    (interval : ℤ × ℤ) : Option ℤ :=
  (intRange ((2 * B + r * n + interval.2 - 1).fdiv interval.2)
      ((3 * B - 1 + r * n).fdiv interval.1 + 1)).find?
    (fun si => oracle ((ciphernum * (si ^ e % n)) % n))

/-- The `while True: ... ri += 1` retry loop of `Attack`'s single-interval
branch, with fuel. -/
def FindFromRLoopF : ℕ → ℤ → (ℤ → Bool) → ℕ → ℤ → ℤ → ℤ × ℤ → Option ℤ
  | 0, _, _, _, _, _, _ => none
  | fuel + 1, ri, oracle, e, n, ciphernum, interval =>
    match FindConformingFromR ri oracle e n ciphernum interval with
    | some s => some s
    | none => FindFromRLoopF fuel (ri + 1) oracle e n ciphernum interval

theorem find?_intRangeGo_eq_some (p : ℤ → Bool) (f : ℕ) (lo x : ℤ) :
    (intRangeGo f lo).find? p = some x ↔
      (lo ≤ x ∧ x < lo + (f : ℤ) ∧ p x = true ∧
        ∀ y : ℤ, lo ≤ y → y < x → p y = false) := by
  induction f generalizing lo with
  | zero =>
    simp only [intRangeGo, List.find?_nil, Nat.cast_zero]
    constructor
    · intro h
      cases h
    · rintro ⟨h1, h2, _, _⟩
      exact absurd h1 (by omega)
  | succ f ih =>
    rw [show intRangeGo (f + 1) lo = lo :: intRangeGo f (lo + 1) from rfl]
    by_cases hp : p lo = true
    · rw [List.find?_cons_of_pos _ hp]
      constructor
      · intro h
        have hx : x = lo := by
          injection h with h
          exact h.symm
        subst hx
        push_cast
        exact ⟨le_refl _, by omega, hp, fun y hy1 hy2 => absurd hy1 (by omega)⟩
      · rintro ⟨h1, _, _, h4⟩
        rcases eq_or_lt_of_le h1 with rfl | hlt
        · rfl
        · rw [h4 lo (le_refl _) hlt] at hp
          cases hp
    · rw [List.find?_cons_of_neg _ hp, ih (lo + 1)]
      have hpf : p lo = false := by
        cases hpl : p lo
        · rfl
        · exact absurd hpl hp
      constructor
      · rintro ⟨h1, h2, h3, h4⟩
        push_cast at h2 ⊢
        refine ⟨by omega, by omega, h3, ?_⟩
        intro y hy1 hy2
        rcases eq_or_lt_of_le hy1 with rfl | hlt
        · exact hpf
        · exact h4 y (by omega) hy2
      · rintro ⟨h1, h2, h3, h4⟩
        have hxlo : x ≠ lo := by
          intro hcon
          subst hcon
          rw [h3] at hpf
          cases hpf
        push_cast at h2 ⊢
        exact ⟨by omega, by omega, h3, fun y hy1 hy2 => h4 y (by omega) hy2⟩

theorem find?_intRange_eq_some (p : ℤ → Bool) (lo hi x : ℤ) :
    (intRange lo hi).find? p = some x ↔
      (lo ≤ x ∧ x < hi ∧ p x = true ∧
        ∀ y : ℤ, lo ≤ y → y < x → p y = false) := by
  rw [intRange, find?_intRangeGo_eq_some]
  rcases le_or_lt lo hi with h | h
  · rw [Int.toNat_of_nonneg (by omega)]
    constructor
    · rintro ⟨h1, h2, h3, h4⟩
      exact ⟨h1, by omega, h3, h4⟩
    · rintro ⟨h1, h2, h3, h4⟩
      exact ⟨h1, by omega, h3, h4⟩
  · rw [Int.toNat_of_nonpos (by omega)]
    constructor
    · rintro ⟨h1, h2, _, _⟩
      simp only [Nat.cast_zero] at h2
      exact absurd h1 (by omega)
    · rintro ⟨h1, h2, _, _⟩
      exact absurd h1 (by omega)

theorem find?_intRange_eq_none (p : ℤ → Bool) (lo hi : ℤ) :
    (intRange lo hi).find? p = none ↔
      ∀ y : ℤ, lo ≤ y → y < hi → p y = false := by
  rw [List.find?_eq_none]
  constructor
  · intro h y hy1 hy2
    have := h y ((mem_intRange lo hi y).mpr ⟨hy1, hy2⟩)
    cases hpy : p y
    · rfl
    · exact absurd hpy this
  · intro h y hy
    rcases (mem_intRange lo hi y).mp hy with ⟨hy1, hy2⟩
    rw [h y hy1 hy2]
    exact Bool.false_ne_true

/-- Claim C4: for `0 < a <= b`, `FindConformingFromR` searches exactly the
inclusive multiplier range `[ceil_div(2B + r*n, b), (3B - 1 + r*n) // a]` in
increasing order: it returns `some s` exactly when `s` is the least accepted
multiplier in that range, and `none` exactly when no multiplier in that range
is accepted. (The Python `// a + 1` supplies the exclusive upper end of
`range`, so the inclusive bound is the textbook `(3B - 1 + r*n) // a`.) -/
theorem findConformingFromR_characterization (r : ℤ) (oracle : ℤ → Bool)
    (e : ℕ) (n ciphernum a b : ℤ) (ha : 0 < a) (hab : a ≤ b) :
    (∀ s : ℤ, FindConformingFromR r oracle e n ciphernum (a, b) = some s ↔
      (ceil_div (2 * B + r * n) b ≤ s ∧ s ≤ (3 * B - 1 + r * n).fdiv a ∧
        oracle ((ciphernum * (s ^ e % n)) % n) = true ∧
        ∀ s2 : ℤ, ceil_div (2 * B + r * n) b ≤ s2 → s2 < s →
          oracle ((ciphernum * (s2 ^ e % n)) % n) = false)) ∧
    (FindConformingFromR r oracle e n ciphernum (a, b) = none ↔
      ∀ s : ℤ, ceil_div (2 * B + r * n) b ≤ s → s ≤ (3 * B - 1 + r * n).fdiv a →
        oracle ((ciphernum * (s ^ e % n)) % n) = false) := by
  have hlo : ceil_div (2 * B + r * n) b = (2 * B + r * n + b - 1).fdiv b := rfl
  constructor
  · intro s
    rw [show FindConformingFromR r oracle e n ciphernum (a, b) =
        (intRange ((2 * B + r * n + b - 1).fdiv b) ((3 * B - 1 + r * n).fdiv a + 1)).find?
          (fun si => oracle ((ciphernum * (si ^ e % n)) % n)) from rfl]
    rw [find?_intRange_eq_some, hlo]
    constructor
    · rintro ⟨h1, h2, h3, h4⟩
      exact ⟨h1, Int.lt_add_one_iff.mp h2, h3, h4⟩
    · rintro ⟨h1, h2, h3, h4⟩
      exact ⟨h1, Int.lt_add_one_iff.mpr h2, h3, h4⟩
  · rw [show FindConformingFromR r oracle e n ciphernum (a, b) =
        (intRange ((2 * B + r * n + b - 1).fdiv b) ((3 * B - 1 + r * n).fdiv a + 1)).find?
          (fun si => oracle ((ciphernum * (si ^ e % n)) % n)) from rfl]
    rw [find?_intRange_eq_none, hlo]
    constructor
    · intro h s h1 h2
      exact h s h1 (Int.lt_add_one_iff.mpr h2)
    · intro h s h1 h2
      exact h s h1 (Int.lt_add_one_iff.mp h2)

set_option maxRecDepth 100000 in
/-- Claim C4 (witness): the characterization applied at `r = 0`,
an always-accepting oracle, `e = 1`, `n = 2^768`, `c = 1`, interval
`(B, B)`, where the searched range is `[2, 2]`. -/
theorem findConformingFromR_characterization_witness :
    (∀ s : ℤ, FindConformingFromR 0 (fun _ => true) 1 ((2:ℤ) ^ 768) 1 (B, B) = some s ↔
      (ceil_div (2 * B + 0 * ((2:ℤ) ^ 768)) B ≤ s ∧
        s ≤ (3 * B - 1 + 0 * ((2:ℤ) ^ 768)).fdiv B ∧
        (fun (_ : ℤ) => true) ((1 * (s ^ 1 % ((2:ℤ) ^ 768))) % ((2:ℤ) ^ 768)) = true ∧
        ∀ s2 : ℤ, ceil_div (2 * B + 0 * ((2:ℤ) ^ 768)) B ≤ s2 → s2 < s →
          (fun (_ : ℤ) => true) ((1 * (s2 ^ 1 % ((2:ℤ) ^ 768))) % ((2:ℤ) ^ 768)) = false)) ∧
    (FindConformingFromR 0 (fun _ => true) 1 ((2:ℤ) ^ 768) 1 (B, B) = none ↔
      ∀ s : ℤ, ceil_div (2 * B + 0 * ((2:ℤ) ^ 768)) B ≤ s →
        s ≤ (3 * B - 1 + 0 * ((2:ℤ) ^ 768)).fdiv B →
          (fun (_ : ℤ) => true) ((1 * (s ^ 1 % ((2:ℤ) ^ 768))) % ((2:ℤ) ^ 768)) = false) :=
  findConformingFromR_characterization 0 (fun _ => true) 1 ((2:ℤ) ^ 768) 1 B B
    (by decide) (by decide)

set_option maxRecDepth 100000 in
/-- Claim C5 (counterexample). The multiplier range actually searched is NOT
the widened `[ceil_div(2B + r*n, b), (3B - 1 + r*n + 1) // a]` the claim
asserts: at `r = 0`, `n = 2^768`, interval `(B, B)`, the claimed inclusive
upper bound is `(3B - 1 + 0*n + 1) // B = 3` and the multiplier `3` lies in
the claimed range, yet an oracle accepting exactly the ciphertext that
multiplier `3` would produce (with `e = 1`, `c0 = 1`) makes the search fail:
no multiplier beyond the textbook bound `(3B - 1 + r*n) // a = 2` is ever
examined. -/
theorem findConformingFromR_not_widened :
    FindConformingFromR 0 (fun c => c == 3) 1 ((2:ℤ) ^ 768) 1 (B, B) = none ∧
    (3 * B - 1 + 0 * ((2:ℤ) ^ 768) + 1).fdiv B = 3 ∧
    (3 * B - 1 + 0 * ((2:ℤ) ^ 768)).fdiv B = 2 ∧
    ceil_div (2 * B + 0 * ((2:ℤ) ^ 768)) B ≤ 3 ∧
    (1 * ((3:ℤ) ^ 1 % (2:ℤ) ^ 768)) % (2:ℤ) ^ 768 == 3 := by
  refine ⟨by decide, by decide, by decide, by decide, by decide⟩

/-- Claim C5 (amended): the inclusive upper bound of the multiplier range
searched by `FindConformingFromR` is exactly the textbook
`floor((3B - 1 + r*n) / a)` — the source's `+ 1` only forms the exclusive
bound of the Python `range` — so every returned multiplier satisfies
`s <= (3B - 1 + r*n) // a`; the code never examines a multiplier beyond the
textbook bound. -/
theorem findConformingFromR_le_textbook (r : ℤ) (oracle : ℤ → Bool) (e : ℕ)
    (n ciphernum : ℤ) (iv : ℤ × ℤ) (s : ℤ)
    (h : FindConformingFromR r oracle e n ciphernum iv = some s) :
    s ≤ (3 * B - 1 + r * n).fdiv iv.1 := by
  have hmem := List.mem_of_find?_eq_some h
  rw [mem_intRange] at hmem
  exact Int.lt_add_one_iff.mp hmem.2

set_option maxRecDepth 100000 in
/-- Claim C5 (witness): with an always-accepting oracle at `r = 0`,
`n = 2^768`, interval `(B, B)` the search returns `2`, which is at most the
textbook bound `(3B - 1) // B = 2`. -/
theorem findConformingFromR_le_textbook_witness :
    FindConformingFromR 0 (fun _ => true) 1 ((2:ℤ) ^ 768) 1 (B, B) = some 2 ∧
    (2:ℤ) ≤ (3 * B - 1 + 0 * ((2:ℤ) ^ 768)).fdiv B :=
  ⟨by decide,
    findConformingFromR_le_textbook 0 (fun _ => true) 1 ((2:ℤ) ^ 768) 1 (B, B) 2 (by decide)⟩

/-!
### `Attack` (source lines 96-134)

```python
def Attack(ciphernum, pubKey, oracle):
    e, n = pubKey
    B = 2 ** (8 * (KEY_BYTESIZE-2))
    i = 1
    c0 = ciphernum
    Mi = [(2*B, 3*B - 1)]
    s0 = 1
    s1 = math.ceil(n / (3 * B))
    s1 = FindConformingBaseStep(s1, oracle, pubKey, c0)
    sNext = s1
    while True:
        si = sNext
        sNext = None
        if i == 1:
            s1 = math.ceil(n / (3 * B))
            sNext = FindConformingBaseStep(s1, oracle, pubKey, c0)
        elif len(Mi) == 1:
            a, b = Mi[0]
            if a == b:
                return a
            else:
                ri = (2 * b * si - 4 * B) // n
                while True:
                    sNext = FindConformingFromR(ri, oracle, pubKey, ciphernum, Mi[0])
                    if sNext is not None:
                        break
                    ri += 1
        else:
            sNext = FindConformingBaseStep(s1 + 1, oracle, pubKey, c0)
        Mi = ComputeNextIntervals(Mi, sNext, n)
        i += 1
```

`math.ceil(n / (3 * B))` is a floating-point computation in the source; it is
embedded as the exact `ceil_div n (3 * B)` (the spec's stated intent) — the
deviation between that float expression and the exact ceiling is settled
separately, on claim C6. The loop state is `(i, Mi, s1, sNext)`; both while
loops get explicit fuel.
-/

/-- The mutable state of `Attack`'s outer `while True` loop. -/
structure AttackState where
  i : ℕ
  Mi : List (ℤ × ℤ)
  s1 : ℤ
  sNext : ℤ
deriving DecidableEq

/-- One iteration of `Attack`'s outer loop. `none`: an inner search ran out
of fuel; `some (Sum.inl m)`: the `return a` on convergence; `some (Sum.inr
st2)`: the next loop state after `Mi = ComputeNextIntervals(...)`, `i += 1`. -/
def AttackStepF (fuel : ℕ) (oracle : ℤ → Bool) (e : ℕ) (n c0 : ℤ)
    (st : AttackState) : Option (ℤ ⊕ AttackState) :=
  if st.i = 1 then
    match FindConformingBaseStepF fuel (ceil_div n (3 * B)) oracle e n c0 with
    | none => none
    | some sN =>
      some (Sum.inr ⟨st.i + 1, ComputeNextIntervals st.Mi sN n, ceil_div n (3 * B), sN⟩)
  else if st.Mi.length = 1 then
    if (st.Mi.getD 0 (0, 0)).1 = (st.Mi.getD 0 (0, 0)).2 then
      some (Sum.inl (st.Mi.getD 0 (0, 0)).1)
    else
      match FindFromRLoopF fuel
          ((2 * (st.Mi.getD 0 (0, 0)).2 * st.sNext - 4 * B).fdiv n)
          oracle e n c0 (st.Mi.getD 0 (0, 0)) with
      | none => none
      | some sN => some (Sum.inr ⟨st.i + 1, ComputeNextIntervals st.Mi sN n, st.s1, sN⟩)
  else
    match FindConformingBaseStepF fuel (st.s1 + 1) oracle e n c0 with
    | none => none
    | some sN => some (Sum.inr ⟨st.i + 1, ComputeNextIntervals st.Mi sN n, st.s1, sN⟩)

/-- The code before `Attack`'s loop: initial interval, bootstrap multiplier
search from `ceil(n / 3B)`; the found multiplier is stored in both `s1` and
`sNext`, and `i = 1`. -/
def AttackInitF (fuel : ℕ) (oracle : ℤ → Bool) (e : ℕ) (n c0 : ℤ) :
    Option AttackState :=
  match FindConformingBaseStepF fuel (ceil_div n (3 * B)) oracle e n c0 with
  | none => none
  | some s1 => some ⟨1, [(2 * B, 3 * B - 1)], s1, s1⟩

/-- `Attack`'s outer `while True` loop with fuel. -/
def AttackLoopF : ℕ → ℕ → (ℤ → Bool) → ℕ → ℤ → ℤ → AttackState → Option ℤ
  | 0, _, _, _, _, _, _ => none
  | outer + 1, fuel, oracle, e, n, c0, st =>
    match AttackStepF fuel oracle e n c0 st with
    | none => none
    | some (Sum.inl m) => some m
    | some (Sum.inr st2) => AttackLoopF outer fuel oracle e n c0 st2

/-- `Attack(ciphernum, (e, n), oracle)` with fuel for every loop. -/
def AttackF (outer fuel : ℕ) (oracle : ℤ → Bool) (e : ℕ) (n c0 : ℤ) : Option ℤ :=
  match AttackInitF fuel oracle e n c0 with
  | none => none
  | some st => AttackLoopF outer fuel oracle e n c0 st

set_option maxRecDepth 100000 in
/-- Claim C6 (exact arithmetic at the failing input): for `n = 6B + 1` the
exact ceiling `ceil_div(n, 3B)` is `3`, while the correctly-rounded IEEE
double computation `math.ceil(n / (3*B))` performed by the source evaluates
`float(6B+1) = 6B` (the `+1` is far below one ulp at this magnitude),
`6B / 3B = 2.0` exactly, and so yields `2 = (6B) // (3B)`, not `3`. -/
theorem ceil_div_exact_vs_float_gap :
    ceil_div (6 * B + 1) (3 * B) = 3 ∧ (6 * B).fdiv (3 * B) = 2 := by
  refine ⟨by decide, by decide⟩

set_option maxRecDepth 1000000 in
/-- Claim C9 (counterexample). A concrete run (`e = 1`, `n = B`, `c0 = 1`,
oracle accepting exactly ciphertext `2`) in which the multi-interval
iteration does NOT search from the previously found base multiplier plus
one: the bootstrap search finds multiplier `2`, iteration 1 resets the state
variable `s1` back to the search starting point `ceil_div(n, 3B) = 1`,
narrowing with multiplier `2` yields two intervals, and iteration 2 (the
multi-interval regime) then finds multiplier `2` again — impossible for a
search starting at the previously found base multiplier plus one, since a
linear search from `3` finds nothing (last conjunct). -/
theorem attack_multi_interval_uses_stale_s1 :
    AttackInitF 10 (fun c => c == 2) 1 B 1 = some ⟨1, [(2 * B, 3 * B - 1)], 2, 2⟩ ∧
    AttackStepF 10 (fun c => c == 2) 1 B 1 ⟨1, [(2 * B, 3 * B - 1)], 2, 2⟩ =
      some (Sum.inr ⟨2, [(2 * B + 1, 5 * (2:ℤ) ^ 751 - 1),
        (5 * (2:ℤ) ^ 751 + 1, 3 * B - 1)], 1, 2⟩) ∧
    AttackStepF 10 (fun c => c == 2) 1 B 1
        ⟨2, [(2 * B + 1, 5 * (2:ℤ) ^ 751 - 1), (5 * (2:ℤ) ^ 751 + 1, 3 * B - 1)], 1, 2⟩ =
      some (Sum.inr ⟨3, [(2 * B + 1, 5 * (2:ℤ) ^ 751 - 1),
        (5 * (2:ℤ) ^ 751 + 1, 3 * B - 1)], 1, 2⟩) ∧
    FindConformingBaseStepF 10 (2 + 1) (fun c => c == 2) 1 B 1 = none := by
  refine ⟨by decide, by decide, by decide, by decide⟩

/-- Claim C9 (amended): in every outer iteration with `i != 1` and more than
one interval (or zero intervals), the next multiplier is found by linear
search starting at the stored `s1 + 1` — and after the `i == 1` iteration the
stored `s1` is `ceil_div(n, 3B)`, the bootstrap search's starting point, not
the conforming multiplier most recently found by a base-step search. -/
theorem attackStep_regimes (fuel : ℕ) (oracle : ℤ → Bool) (e : ℕ) (n c0 : ℤ)
    (st : AttackState) :
    (st.i ≠ 1 → st.Mi.length ≠ 1 →
      AttackStepF fuel oracle e n c0 st =
        (FindConformingBaseStepF fuel (st.s1 + 1) oracle e n c0).map
          (fun sN => Sum.inr ⟨st.i + 1, ComputeNextIntervals st.Mi sN n, st.s1, sN⟩)) ∧
    (∀ st2 : AttackState, st.i = 1 →
      AttackStepF fuel oracle e n c0 st = some (Sum.inr st2) →
      st2.s1 = ceil_div n (3 * B)) := by
  constructor
  · intro h1 h2
    unfold AttackStepF
    rw [if_neg h1, if_neg h2]
    cases hf : FindConformingBaseStepF fuel (st.s1 + 1) oracle e n c0 <;> simp [hf]
  · intro st2 h1 hstep
    unfold AttackStepF at hstep
    rw [if_pos h1] at hstep
    cases hf : FindConformingBaseStepF fuel (ceil_div n (3 * B)) oracle e n c0 <;>
      rw [hf] at hstep
    · cases hstep
    · injection hstep with hstep
      injection hstep with hstep
      rw [← hstep]

set_option maxRecDepth 1000000 in
/-- Claim C9 (witness): the regime theorem applied at the concrete
multi-interval state of the counterexample run (`i = 2`, two intervals,
stored `s1 = 1`): the step searches from `1 + 1`. -/
theorem attackStep_regimes_witness :
    AttackStepF 10 (fun c => c == 2) 1 B 1
        ⟨2, [(2 * B + 1, 5 * (2:ℤ) ^ 751 - 1), (5 * (2:ℤ) ^ 751 + 1, 3 * B - 1)], 1, 2⟩ =
      (FindConformingBaseStepF 10 ((1:ℤ) + 1) (fun c => c == 2) 1 B 1).map
        (fun sN => Sum.inr ⟨2 + 1,
          ComputeNextIntervals
            [(2 * B + 1, 5 * (2:ℤ) ^ 751 - 1), (5 * (2:ℤ) ^ 751 + 1, 3 * B - 1)] sN B,
          1, sN⟩) :=
  (attackStep_regimes 10 (fun c => c == 2) 1 B 1
    ⟨2, [(2 * B + 1, 5 * (2:ℤ) ^ 751 - 1), (5 * (2:ℤ) ^ 751 + 1, 3 * B - 1)], 1, 2⟩).1
    (by decide) (by decide)

set_option maxRecDepth 100000 in
/-- Claim C10 (counterexample). The source has no retry cap and no error
values: with an oracle that never accepts, both the base-step linear search
and the `r`-increment retry loop are still running when any amount of fuel
runs out (`none` here means fuel exhaustion of the embedding, not an
`OracleExhausted` or `NonConvergence` error — no such value exists in the
code, whose only exit from these loops is a successful return). -/
theorem attack_loops_no_cap_concrete :
    FindConformingBaseStepF 5 1 (fun _ => false) 1 B 1 = none ∧
    FindFromRLoopF 5 0 (fun _ => false) 1 B 1 (2 * B, 3 * B - 1) = none := by
  refine ⟨by decide, by decide⟩

theorem findFromRLoopF_succ (f : ℕ) (ri : ℤ) (o : ℤ → Bool) (e : ℕ) (n c : ℤ)
    (iv : ℤ × ℤ) :
    FindFromRLoopF (f + 1) ri o e n c iv =
      match FindConformingFromR ri o e n c iv with
      | some s => some s
      | none => FindFromRLoopF f (ri + 1) o e n c iv := rfl

/-- Claim C10 (amended): the loops are unbounded. For every fuel value, with
a never-accepting oracle, `FindConformingBaseStep`'s `while True` and the
`r`-increment retry loop of `Attack`'s single-interval branch have not
terminated (no result and no error — the code defines no `OracleExhausted`
or `NonConvergence`); only oracle acceptance can ever end them. -/
theorem attack_loops_unbounded (fuel : ℕ) (s ri : ℤ) (e : ℕ) (n ciphernum : ℤ)
    (iv : ℤ × ℤ) :
    FindConformingBaseStepF fuel s (fun _ => false) e n ciphernum = none ∧
    FindFromRLoopF fuel ri (fun _ => false) e n ciphernum iv = none := by
  constructor
  · induction fuel generalizing s with
    | zero => rfl
    | succ f ih => simp [FindConformingBaseStepF, ih]
  · induction fuel generalizing ri with
    | zero => rfl
    | succ f ih =>
      have hnone : FindConformingFromR ri (fun _ => false) e n ciphernum iv = none := by
        unfold FindConformingFromR
        rw [List.find?_eq_none]
        intro x _
        simp
      rw [findFromRLoopF_succ, hnone]
      exact ih (ri + 1)
